import Mathlib

/-!
Verification of the FitPlanAI progress aggregation logic.

The definitions below are a shallow embedding of the progress endpoint and
its helpers from the server routes module (the `GET /api/progress` handler,
`calculateCurrentStreak`, and `enrichLogsWithWorkouts`).  Timestamps are
modelled as integers (epoch milliseconds); a local calendar date is the
floor of the timestamp over the length of a day, mirroring the local
midnight normalisation performed via `toDateString` in the source.
JavaScript numbers carried by the loosely typed exercise payloads are
modelled as rationals.
-/

namespace FitPlan

/-- The constant `DAY_IN_MS` from the routes module. -/
def DAY_IN_MS : Int := 24 * 60 * 60 * 1000

/-- The local calendar date of a timestamp, as a day index.  Models the
`toDateString` bucketing and the midnight normalisation in the source. -/
def dayOf (t : Int) : Int := t / DAY_IN_MS

/-- JavaScript `Math.round`: round half toward positive infinity. -/
def jsRound (q : ℚ) : Int := ⌊q + 1 / 2⌋

/-- The fields of a stored workout that the progress logic reads
(`workouts` table: `id`, `estimated_duration`, plus unread fields). -/
structure Workout where
  id : String
  estimatedDuration : Option Int
deriving Repr, DecidableEq

/-- One loosely typed exercise-performance record inside a log payload.
Each duration field is `none` when the JSON field is absent or not a
number, mirroring the `typeof x === "number"` guards in the source. -/
structure ExerciseRec where
  durationMinutes : Option ℚ := none
  duration : Option ℚ := none
  durationSeconds : Option ℚ := none
deriving Repr, DecidableEq

/-- An element of the `exercises` JSON array: either an object or some
other JSON value (the source skips non-objects). -/
inductive ExerciseEntry where
  | obj (e : ExerciseRec)
  | nonObj
deriving Repr, DecidableEq

/-- The `exercises` JSON column: an array, or any non-array value
(including null); the source tests `Array.isArray`. -/
inductive ExercisesVal where
  | arr (entries : List ExerciseEntry)
  | nonArr
deriving Repr, DecidableEq

/-- A row of the `workout_logs` table, restricted to the fields the
progress logic reads.  `completedAt` is an epoch-millisecond timestamp or
null. -/
structure WorkoutLog where
  workoutId : Option String := none
  completedAt : Option Int := none
  rating : Option ℚ := none
  rpe : Option ℚ := none
  durationMinutes : Option ℚ := none
  caloriesBurned : Option ℚ := none
  tags : Option (List String) := none
  exercises : ExercisesVal := ExercisesVal.nonArr
deriving Repr, DecidableEq

/-- A log together with its resolved workout, as produced by
`enrichLogsWithWorkouts` (`{...log, workout}`). -/
structure EnrichedLog where
  log : WorkoutLog
  workout : Option Workout
deriving Repr, DecidableEq

/-- Insertion into the `workoutMap` built by `new Map(workouts.map(w =>
[w.id, w]))`: a later entry with the same id overwrites an earlier one,
and `get` returns the stored workout or nothing. -/
def workoutMapGet (ws : List Workout) (id : String) : Option Workout :=
  ws.foldl (fun acc w => if w.id = id then some w else acc) none

/-- The filter on `log.workoutId` used to build `workoutIds`: the value
must be a string of positive length. -/
def validWorkoutId : Option String → Option String
  | some id => if 0 < id.length then some id else none
  | none => none

/-- The helper `enrichLogsWithWorkouts` from the routes module.  Here `fetched` stands for
the result of the external `storage.getWorkoutsByIds` batch lookup. -/
def enrichLogsWithWorkouts (logs : List WorkoutLog) (fetched : List Workout) :
    List EnrichedLog :=
  let workoutIds := (logs.filterMap (fun l => validWorkoutId l.workoutId)).dedup
  if workoutIds.isEmpty then
    logs.map (fun l => ⟨l, none⟩)
  else
    logs.map (fun l =>
      ⟨l, match l.workoutId with
          | some id => if 0 < id.length then workoutMapGet fetched id else none
          | none => none⟩)

/-- The per-exercise derived minutes inside the `totalMinutes` reducer:
`durationMinutes ?? duration ?? Math.round(durationSeconds / 60) ?? 0`,
with non-object entries contributing nothing. -/
def exerciseDerivedMinutes : ExerciseEntry → ℚ
  | ExerciseEntry.nonObj => 0
  | ExerciseEntry.obj r =>
      ((r.durationMinutes.orElse (fun _ => r.duration)).orElse
        (fun _ => r.durationSeconds.map (fun sec => ((jsRound (sec / 60) : Int) : ℚ)))).getD 0

/-- The exercise-based fallback of the `totalMinutes` reducer: sum the
derived minutes over the `exercises` array, or contribute 0 when the
column is not an array. -/
def logExercisesMinutes (l : WorkoutLog) : ℚ :=
  match l.exercises with
  | ExercisesVal.arr es => es.foldl (fun t e => t + exerciseDerivedMinutes e) 0
  | ExercisesVal.nonArr => 0

/-- The truthiness test `log.workout?.estimatedDuration`: the workout must
be present and its estimated duration present and non-zero. -/
def estimatedDurationTruthy : Option Workout → Option Int
  | some wk =>
      match wk.estimatedDuration with
      | some d => if d ≠ 0 then some d else none
      | none => none
  | none => none

/-- The contribution of one enriched log inside the `totalMinutes`
reducer: the linked workout estimated duration when truthy, otherwise the
exercise-based fallback. -/
def perLogMinutes (el : EnrichedLog) : ℚ :=
  match estimatedDurationTruthy el.workout with
  | some d => (d : ℚ)
  | none => logExercisesMinutes el.log

/-- The raw `totalMinutes` accumulator over the enriched logs. -/
def totalMinutesRaw (els : List EnrichedLog) : ℚ :=
  els.foldl (fun t el => t + perLogMinutes el) 0

/-- The reported total minutes: `Math.max(0, Math.round(totalMinutes))`. -/
def totalMinutes (els : List EnrichedLog) : Int :=
  max 0 (jsRound (totalMinutesRaw els))

/-- The `ratings` list: map each log to its rating when it is a number
greater than zero, and drop the rest. -/
def ratingValues (logs : List WorkoutLog) : List ℚ :=
  logs.filterMap (fun l =>
    match l.rating with
    | some r => if 0 < r then some r else none
    | none => none)

/-- The aggregate `averageRating` from the progress handler: the mean of the collected
ratings rounded to one decimal place, or 0 when none were collected. -/
def averageRating (logs : List WorkoutLog) : ℚ :=
  let ratings := ratingValues logs
  if ratings.length ≠ 0 then
    ((jsRound ((ratings.foldl (fun s r => s + r) 0 / (ratings.length : ℚ)) * 10) : Int) : ℚ) / 10
  else 0

/-- The aggregate `workoutsThisWeek` from the progress handler: count the logs whose
timestamp is at or after `endDate - (min(days, 7) - 1)` days. -/
def workoutsThisWeek (now : Int) (daysNumber : Nat) (logs : List WorkoutLog) : Nat :=
  let daysForWeek : Nat := min daysNumber 7
  let weekStart : Int := now - ((daysForWeek : Int) - 1) * DAY_IN_MS
  (logs.filter (fun l =>
    match l.completedAt with
    | some t => weekStart ≤ t
    | none => false)).length

/-- The `logDateCounts` map of the progress handler, read back through
`get(key) ?? 0`: the number of logs with a non-null `completedAt` falling
on the given calendar day. -/
def logDateCount (logs : List WorkoutLog) (d : Int) : Nat :=
  (logs.filterMap (fun l => l.completedAt.map dayOf)).count d

/-- One entry of the `dailyStats` series. -/
structure DailyStat where
  date : String
  workouts : Nat
  streak : Nat
deriving Repr, DecidableEq

/-- The short weekday label produced by `toLocaleDateString` with the
`weekday: "short"` option, as a function of the day index (day 0 of the
epoch was a Thursday). -/
def weekdayShort (d : Int) : String :=
  match (d.emod 7).toNat with
  | 0 => "Thu"
  | 1 => "Fri"
  | 2 => "Sat"
  | 3 => "Sun"
  | 4 => "Mon"
  | 5 => "Tue"
  | _ => "Wed"

/-- The `dailyStats` loop of the progress handler: iterate `i` from
`rem - 1` down to 0, pushing one entry per day and threading the running
streak accumulator. -/
def dailyStatsGo (now : Int) (logs : List WorkoutLog) : Nat → Nat → List DailyStat
  | 0, _ => []
  | rem + 1, streak =>
      let dayKey := dayOf (now - (rem : Int) * DAY_IN_MS)
      let w := logDateCount logs dayKey
      let s := if 0 < w then streak + 1 else 0
      ⟨weekdayShort dayKey, w, s⟩ :: dailyStatsGo now logs rem s

/-- The `dailyStats` series of the progress handler. -/
def dailyStats (now : Int) (daysNumber : Nat) (logs : List WorkoutLog) : List DailyStat :=
  dailyStatsGo now logs daysNumber 0

/-- The normalised calendar days of the logs with a non-null
`completedAt`, mirroring the `loggedDates` set of `calculateCurrentStreak`. -/
def loggedDays (logs : List WorkoutLog) : List Int :=
  logs.filterMap (fun l => l.completedAt.map dayOf)

/-- The backward scan loop of `calculateCurrentStreak`: at offset `i`, a
logged day increments the streak, an empty day other than today stops the
scan, and an empty today is skipped. -/
def streakLoop (hasLog : Int → Bool) (today : Int) : Nat → Nat → Nat → Nat
  | streak, _, 0 => streak
  | streak, i, fuel + 1 =>
      if hasLog (today - (i : Int)) then streakLoop hasLog today (streak + 1) (i + 1) fuel
      else if 0 < i then streak
      else streakLoop hasLog today streak (i + 1) fuel

/-- The function `calculateCurrentStreak` from the routes module. -/
def calculateCurrentStreak (logs : List WorkoutLog) (now : Int) : Nat :=
  if logs.isEmpty then 0
  else
    let todayDay := dayOf now
    let logged := loggedDays logs
    streakLoop (fun d => logged.contains d) todayDay 0 0 30

/-- The JSON body produced by the progress endpoint. -/
structure ProgressReport where
  dailyStats : List DailyStat
  totalWorkouts : Nat
  averageRating : ℚ
  currentStreak : Nat
  workoutsThisWeek : Nat
  totalMinutes : Int
deriving Repr, DecidableEq

/-- The progress endpoint computation after the logs have been fetched:
`fetched` stands for the workouts returned by the batch lookup inside
`enrichLogsWithWorkouts`. -/
def progressReport (now : Int) (daysNumber : Nat) (logs : List WorkoutLog)
    (fetched : List Workout) : ProgressReport :=
  let logsWithWorkouts := enrichLogsWithWorkouts logs fetched
  { dailyStats := dailyStats now daysNumber logs
    totalWorkouts := logs.length
    averageRating := averageRating logs
    currentStreak := calculateCurrentStreak logs now
    workoutsThisWeek := workoutsThisWeek now daysNumber logs
    totalMinutes := totalMinutes logsWithWorkouts }

/-!
Specification-side definitions.  Each `claim...` definition below follows
the wording of the specification and is compared with the corresponding
code-side definition above.
-/

/-- A calendar day has at least one log when some log has a non-null
`completedAt` whose local calendar date is that day. -/
def hasLogOn (logs : List WorkoutLog) (d : Int) : Bool :=
  logs.any (fun l =>
    match l.completedAt with
    | some t => dayOf t == d
    | none => false)

/-- The backward scan described by the specification: starting at offset
0 (today), a day with at least one log adds 1 to the streak; the scan
stops at the first day with zero logs, except that a zero-workout today
is skipped without counting and without stopping. -/
def claimStreakGo (has : Int → Bool) (today : Int) : Nat → Nat → Nat
  | _, 0 => 0
  | i, fuel + 1 =>
      if has (today - (i : Int)) then 1 + claimStreakGo has today (i + 1) fuel
      else if i = 0 then claimStreakGo has today (i + 1) fuel
      else 0

/-- The current streak as worded by the specification: the backward
day-by-day scan starting at the local calendar date of `now`, examining
at most 30 days (offsets 0 through 29). -/
def claimCurrentStreak (logs : List WorkoutLog) (now : Int) : Nat :=
  claimStreakGo (fun d => hasLogOn logs d) (dayOf now) 0 30

/-- The per-day workout count as worded by the specification: the number
of logs whose `completedAt` falls on the given local calendar day. -/
def logsOnDay (logs : List WorkoutLog) (d : Int) : Nat :=
  logs.countP (fun l =>
    match l.completedAt with
    | some t => dayOf t == d
    | none => false)

/-- The running streak embedded in the daily series, as worded by the
specification: 0 on any day with no logs, and the previous value plus 1
on a day with at least one log.  Index 0 is the oldest day of the
window. -/
def runningStreakSpec (now : Int) (w : Nat) (logs : List WorkoutLog) : Nat → Nat
  | 0 => if 0 < logsOnDay logs (dayOf now - ((w : Int) - 1)) then 1 else 0
  | j + 1 =>
      if 0 < logsOnDay logs (dayOf now - ((w : Int) - 1) + ((j : Int) + 1)) then
        runningStreakSpec now w logs j + 1
      else 0

/-- The daily-series entry described by the specification for index `j`
(chronological, 0 = oldest day of the window). -/
def claimDailyEntry (now : Int) (w : Nat) (logs : List WorkoutLog) (j : Nat) : DailyStat :=
  { date := weekdayShort (dayOf now - ((w : Int) - 1) + (j : Int))
    workouts := logsOnDay logs (dayOf now - ((w : Int) - 1) + (j : Int))
    streak := runningStreakSpec now w logs j }

/-- The this-week count as worded by the specification: the number of
logs whose `completedAt` falls within the trailing 7 days ending at
`now`, under the inclusive day-window convention of the specification
(`[now - 6 days, now]`). -/
def claimThisWeek (now : Int) (logs : List WorkoutLog) : Nat :=
  (logs.filter (fun l =>
    match l.completedAt with
    | some t => now - 6 * DAY_IN_MS ≤ t && t ≤ now
    | none => false)).length

/-- The average described by the specification: the mean of the values,
rounded to one decimal place, and 0 when no values are present. -/
def claimMeanRounded (vals : List ℚ) : ℚ :=
  if vals = [] then 0
  else ((jsRound (10 * (vals.sum / (vals.length : ℚ))) : Int) : ℚ) / 10

/-- The per-exercise derivation as worded by the specification:
`durationMinutes` if present, else the generic `duration` field, else
`durationSeconds / 60` rounded to the nearest integer, else 0. -/
def claimExerciseMinutes (r : ExerciseRec) : ℚ :=
  match r.durationMinutes with
  | some m => m
  | none =>
      match r.duration with
      | some g => g
      | none =>
          match r.durationSeconds with
          | some s => ((jsRound (s / 60) : Int) : ℚ)
          | none => 0

/-!
Definitions modelled from the specification.  The progress response
consumed by the client also carries an average RPE, a total-calories
figure, a ranked tag breakdown and weekly summaries (`ProgressResponse`
in the client progress page), but no code in the repository computes
them; the schema only declares the underlying `rpe`, `calories_burned`
and `tags` columns.  These aggregates are therefore modelled from the
specification text.
-/

/-- Modelled from the spec: the present RPE values of the logs, mirroring
the treatment of ratings (non-null and greater than zero).  The engine
computing this aggregate is missing from the repository sources. -/
def rpeValues (logs : List WorkoutLog) : List ℚ :=
  logs.filterMap (fun l =>
    match l.rpe with
    | some r => if 0 < r then some r else none
    | none => none)

/-- Modelled from the spec: the average RPE aggregate of the progress
report, the mean of the present RPE values rounded to one decimal place
and 0 when none are present.  The engine computing this aggregate is
missing from the repository sources. -/
def averageRpe (logs : List WorkoutLog) : ℚ :=
  let vals := rpeValues logs
  if vals.length ≠ 0 then
    ((jsRound ((vals.foldl (fun s r => s + r) 0 / (vals.length : ℚ)) * 10) : Int) : ℚ) / 10
  else 0

/-- Modelled from the spec: the per-log duration derivation of section
4.1.2, used by the weekly summaries — the log duration when present and
positive, else the linked workout estimated duration, else the
exercise-based sum.  The weekly-summary engine is missing from the
repository sources. -/
def specLogMinutesFallback (el : EnrichedLog) : ℚ :=
  match el.workout with
  | some wk =>
      match wk.estimatedDuration with
      | some d => (d : ℚ)
      | none => logExercisesMinutes el.log
  | none => logExercisesMinutes el.log

/-- Modelled from the spec: the first rule of the duration derivation of
section 4.1.2 — the log duration wins when present and positive.  The
weekly-summary engine is missing from the repository sources. -/
def specLogMinutes (el : EnrichedLog) : ℚ :=
  match el.log.durationMinutes with
  | some v => if 0 < v then v else specLogMinutesFallback el
  | none => specLogMinutesFallback el

/-- Modelled from the spec: the number of trailing 7-day buckets covering
a window of `w` days (the final, oldest bucket absorbs the remainder).
The weekly-summary engine is missing from the repository sources. -/
def numWeekBuckets (w : Nat) : Nat := (w + 6) / 7

/-- Modelled from the spec: the most recent day of bucket `j`, where
bucket 0 ends at the day of `now` and buckets extend backward in steps of
7 days.  The weekly-summary engine is missing from the repository
sources. -/
def bucketEndDay (today : Int) (j : Nat) : Int := today - 7 * (j : Int)

/-- Modelled from the spec: the oldest day of bucket `j`, clamped to the
oldest day of the window so that the final bucket absorbs the remainder.
The weekly-summary engine is missing from the repository sources. -/
def bucketStartDay (today : Int) (w : Nat) (j : Nat) : Int :=
  today - ((min (7 * j + 6) (w - 1) : Nat) : Int)

/-- Modelled from the spec: membership of a calendar day in bucket `j`.
The weekly-summary engine is missing from the repository sources. -/
def inBucket (today : Int) (w : Nat) (j : Nat) (d : Int) : Bool :=
  bucketStartDay today w j ≤ d && d ≤ bucketEndDay today j

/-- Modelled from the spec: the enriched logs whose completion day falls
in bucket `j`.  The weekly-summary engine is missing from the repository
sources. -/
def bucketLogs (today : Int) (w : Nat) (j : Nat) (els : List EnrichedLog) :
    List EnrichedLog :=
  els.filter (fun el =>
    match el.log.completedAt with
    | some t => inBucket today w j (dayOf t)
    | none => false)

/-- Modelled from the spec: membership of an enriched log in the query
window (its completion day lies between the oldest day of the window and
the day of `now`). -/
def inWindowLog (today : Int) (w : Nat) (el : EnrichedLog) : Bool :=
  match el.log.completedAt with
  | some t => today - ((w : Int) - 1) ≤ dayOf t && dayOf t ≤ today
  | none => false

/-- One weekly summary of the progress report, as declared by the client
(`WeeklySummary` in the progress page). -/
structure WeeklySummary where
  weekStart : Int
  weekEnd : Int
  workouts : Nat
  minutes : ℚ
  avgRpe : ℚ
  calories : ℚ
deriving Repr, DecidableEq

/-- Modelled from the spec: the summary of one bucket — workout count,
sum of the per-log derived minutes, average RPE across the logs that have
an RPE, and total calories across the logs that have a calorie value.
The weekly-summary engine is missing from the repository sources. -/
def mkWeekSummary (today : Int) (w : Nat) (j : Nat) (els : List EnrichedLog) :
    WeeklySummary :=
  let bl := bucketLogs today w j els
  let rpes := rpeValues (bl.map (fun el => el.log))
  { weekStart := bucketStartDay today w j
    weekEnd := bucketEndDay today j
    workouts := bl.length
    minutes := (bl.map specLogMinutes).sum
    avgRpe := if rpes = [] then 0 else rpes.sum / (rpes.length : ℚ)
    calories := (bl.map (fun el => el.log.caloriesBurned.getD 0)).sum }

/-- Modelled from the spec: the weekly summaries of the progress report,
one per trailing 7-day bucket, produced chronologically (oldest bucket
first).  The weekly-summary engine is missing from the repository
sources. -/
def weeklySummaries (now : Int) (w : Nat) (els : List EnrichedLog) :
    List WeeklySummary :=
  ((List.range (numWeekBuckets w)).reverse).map
    (fun j => mkWeekSummary (dayOf now) w j els)

/-- Modelled from the spec: every tag string across every log, in log
order.  The tag-breakdown engine is missing from the repository
sources. -/
def allTags (logs : List WorkoutLog) : List String :=
  (logs.map (fun l => l.tags.getD [])).flatten

/-- Modelled from the spec: the number of occurrences of a tag across the
logs.  The tag-breakdown engine is missing from the repository
sources. -/
def occCount (logs : List WorkoutLog) (t : String) : Nat :=
  (allTags logs).count t

/-- Scan a list keeping the first occurrence of each element, carrying
the set of elements already seen. -/
def firstSeenGo (seen : List String) : List String → List String
  | [] => []
  | t :: rest =>
      if t ∈ seen then firstSeenGo seen rest
      else t :: firstSeenGo (t :: seen) rest

/-- The distinct elements of a list in first-seen order. -/
def firstSeenTags (l : List String) : List String := firstSeenGo [] l

/-- Modelled from the spec: the position of the first occurrence of a tag
across the logs, used to break ties.  The tag-breakdown engine is missing
from the repository sources. -/
def firstIdx (logs : List WorkoutLog) (t : String) : Nat :=
  (allTags logs).indexOf t

/-- Modelled from the spec: the ranking order of the tag breakdown —
descending occurrence count, with ties broken by first-seen order.  The
tag-breakdown engine is missing from the repository sources. -/
def tagBefore (logs : List WorkoutLog) (a b : String) : Prop :=
  occCount logs b < occCount logs a ∨
    (occCount logs a = occCount logs b ∧ firstIdx logs a < firstIdx logs b)

/-- Decidable test for `tagBefore`. -/
def tagBeforeB (logs : List WorkoutLog) (a b : String) : Bool :=
  occCount logs b < occCount logs a ||
    (occCount logs a == occCount logs b && firstIdx logs a < firstIdx logs b)

/-- Insertion of a tag into a ranked list: the new tag goes after every
tag ranked before it. -/
def insertRankedTag (logs : List WorkoutLog) (x : String) :
    List String → List String
  | [] => [x]
  | y :: ys =>
      if tagBeforeB logs y x then y :: insertRankedTag logs x ys
      else x :: y :: ys

/-- Modelled from the spec: the distinct tags sorted by descending count
with ties in first-seen order.  The tag-breakdown engine is missing from
the repository sources. -/
def rankedTags (logs : List WorkoutLog) : List String :=
  (firstSeenTags (allTags logs)).foldl (fun acc t => insertRankedTag logs t acc) []

/-- Modelled from the spec: the ranked tag breakdown of the progress
report, each tag paired with its occurrence count.  The tag-breakdown
engine is missing from the repository sources. -/
def tagBreakdown (logs : List WorkoutLog) : List (String × Nat) :=
  (rankedTags logs).map (fun t => (t, occCount logs t))

/-!
Helper lemmas.
-/

theorem contains_loggedDays (logs : List WorkoutLog) (d : Int) :
    (loggedDays logs).contains d = hasLogOn logs d := by
  induction logs with
  | nil => rfl
  | cons l ls ih =>
      cases hc : l.completedAt with
      | none =>
          simp only [loggedDays, List.filterMap_cons, hc, Option.map_none', hasLogOn,
            List.any_cons] at ih ⊢
          simpa using ih
      | some t =>
          simp only [loggedDays, List.filterMap_cons, hc, Option.map_some', hasLogOn,
            List.any_cons, List.contains_cons] at ih ⊢
          have hbeq : (d == dayOf t) = (dayOf t == d) := by
            by_cases h : dayOf t = d
            · simp [h]
            · simp [h, Ne.symm h]
          rw [hbeq, ih]

theorem streakLoop_eq_claimStreakGo (has : Int → Bool) (today : Int) :
    ∀ (fuel i acc : Nat),
      streakLoop has today acc i fuel = acc + claimStreakGo has today i fuel := by
  intro fuel
  induction fuel with
  | zero => intro i acc; simp [streakLoop, claimStreakGo]
  | succ n ih =>
      intro i acc
      by_cases h : has (today - (i : Int))
      · simp only [streakLoop, claimStreakGo, h, if_true]
        rw [ih]
        omega
      · rcases Nat.eq_zero_or_pos i with hi | hi
        · subst hi
          simp only [streakLoop, claimStreakGo, h, Bool.false_eq_true, if_false,
            Nat.lt_irrefl, if_true]
          exact ih 1 acc
        · have hi0 : i ≠ 0 := Nat.pos_iff_ne_zero.mp hi
          simp [streakLoop, claimStreakGo, h, hi, hi0]

theorem claimStreakGo_eq_zero (has : Int → Bool) (today : Int) :
    ∀ (fuel i : Nat),
      (∀ k : Nat, i ≤ k → k < i + fuel → has (today - (k : Int)) = false) →
      claimStreakGo has today i fuel = 0 := by
  intro fuel
  induction fuel with
  | zero => intro i _; rfl
  | succ n ih =>
      intro i hnone
      have hi : has (today - (i : Int)) = false :=
        hnone i (Nat.le_refl i) (by omega)
      simp only [claimStreakGo, hi, Bool.false_eq_true, if_false]
      by_cases h0 : i = 0
      · subst h0
        simp only [if_true]
        exact ih 1 (fun k hk1 hk2 => hnone k (by omega) (by omega))
      · simp [h0]

theorem hasLogOn_nil (d : Int) : hasLogOn [] d = false := rfl

/-- C1: for every list of workout logs, the current streak equals the
backward day-by-day scan of the specification starting at the local
calendar date of `now`, examining at most 30 days; a user with no log in
the last 30 days gets streak 0, and the streak is 0 when the log list is
empty. -/
theorem currentStreak_matches_claim :
    ∀ (now : Int) (logs : List WorkoutLog),
      calculateCurrentStreak logs now = claimCurrentStreak logs now
      ∧ calculateCurrentStreak [] now = 0
      ∧ ((∀ i : Nat, i < 30 → hasLogOn logs (dayOf now - (i : Int)) = false) →
          calculateCurrentStreak logs now = 0) := by
  intro now logs
  have hmain : ∀ ls : List WorkoutLog,
      calculateCurrentStreak ls now = claimCurrentStreak ls now := by
    intro ls
    cases ls with
    | nil =>
        simp only [calculateCurrentStreak, List.isEmpty_nil, if_true, claimCurrentStreak]
        symm
        exact claimStreakGo_eq_zero _ _ 30 0 (fun k _ _ => hasLogOn_nil _)
    | cons l t =>
        simp only [calculateCurrentStreak, List.isEmpty_cons, if_false, claimCurrentStreak]
        have hfun : (fun d => (loggedDays (l :: t)).contains d) =
            (fun d => hasLogOn (l :: t) d) := by
          funext d
          exact contains_loggedDays (l :: t) d
        rw [streakLoop_eq_claimStreakGo, hfun]
        simp
  refine ⟨hmain logs, hmain [], ?_⟩
  intro hnone
  rw [hmain logs]
  exact claimStreakGo_eq_zero _ _ 30 0 (fun k _ hk => hnone k (by omega))

/-- Witness for the current-streak theorem at a concrete input: one log
40 days old yields streak 0. -/
theorem currentStreak_matches_claim_witness :
    calculateCurrentStreak [{ completedAt := some (60 * DAY_IN_MS) }] (100 * DAY_IN_MS) = 0 :=
  (currentStreak_matches_claim (100 * DAY_IN_MS)
    [{ completedAt := some (60 * DAY_IN_MS) }]).2.2 (by decide)

theorem dayOf_sub_mul (t n : Int) : dayOf (t - n * DAY_IN_MS) = dayOf t - n := by
  have hD : DAY_IN_MS ≠ 0 := by decide
  have hsub : t - n * DAY_IN_MS = t + (-n) * DAY_IN_MS := by ring
  rw [dayOf, dayOf, hsub, Int.add_mul_ediv_right _ _ hD]
  ring

theorem logDateCount_eq_logsOnDay (logs : List WorkoutLog) (d : Int) :
    logDateCount logs d = logsOnDay logs d := by
  induction logs with
  | nil => rfl
  | cons l ls ih =>
      cases hc : l.completedAt with
      | none =>
          simp only [logDateCount, logsOnDay, List.filterMap_cons, hc, Option.map_none',
            List.countP_cons] at ih ⊢
          simpa [hc] using ih
      | some t =>
          simp only [logDateCount, logsOnDay, List.filterMap_cons, hc, Option.map_some',
            List.countP_cons, List.count_cons] at ih ⊢
          rw [ih]

/-- The streak value entering the iteration of index `j` of the daily
series: 0 for the oldest day, and the running streak of the previous day
afterward. -/
def preStreak (now : Int) (w : Nat) (logs : List WorkoutLog) : Nat → Nat
  | 0 => 0
  | j + 1 => runningStreakSpec now w logs j

theorem runningStreakSpec_step (now : Int) (w : Nat) (logs : List WorkoutLog) :
    ∀ j : Nat,
      runningStreakSpec now w logs j =
        if 0 < logsOnDay logs (dayOf now - ((w : Int) - 1) + (j : Int)) then
          preStreak now w logs j + 1
        else 0 := by
  intro j
  cases j with
  | zero => simp [runningStreakSpec, preStreak]
  | succ j =>
      simp only [runningStreakSpec, preStreak]
      norm_cast

theorem dailyStatsGo_eq_claim (now : Int) (w : Nat) (logs : List WorkoutLog) :
    ∀ rem : Nat, rem ≤ w →
      dailyStatsGo now logs rem (preStreak now w logs (w - rem)) =
        (List.range rem).map (fun k => claimDailyEntry now w logs ((w - rem) + k)) := by
  intro rem
  induction rem with
  | zero => intro _; rfl
  | succ r ih =>
      intro hrw
      have hday : dayOf (now - (r : Int) * DAY_IN_MS) =
          dayOf now - ((w : Int) - 1) + ((w - (r + 1) : Nat) : Int) := by
        rw [dayOf_sub_mul]
        have : ((w - (r + 1) : Nat) : Int) = (w : Int) - 1 - (r : Int) := by
          omega
        rw [this]
        ring
      have hcount : logDateCount logs (dayOf (now - (r : Int) * DAY_IN_MS)) =
          logsOnDay logs (dayOf now - ((w : Int) - 1) + ((w - (r + 1) : Nat) : Int)) := by
        rw [hday, logDateCount_eq_logsOnDay]
      have hstep : (if 0 < logDateCount logs (dayOf (now - (r : Int) * DAY_IN_MS)) then
            preStreak now w logs (w - (r + 1)) + 1
          else 0) = runningStreakSpec now w logs (w - (r + 1)) := by
        rw [hcount, runningStreakSpec_step]
      have hpre : runningStreakSpec now w logs (w - (r + 1)) = preStreak now w logs (w - r) := by
        have : w - r = (w - (r + 1)) + 1 := by omega
        rw [this, preStreak]
      simp only [dailyStatsGo]
      rw [hstep, hpre, ih (by omega)]
      rw [List.range_succ_eq_map, List.map_cons, List.map_map]
      have hhead : claimDailyEntry now w logs ((w - (r + 1)) + 0) =
          ({ date := weekdayShort (dayOf (now - (r : Int) * DAY_IN_MS))
             workouts := logDateCount logs (dayOf (now - (r : Int) * DAY_IN_MS))
             streak := preStreak now w logs (w - r) } : DailyStat) := by
        simp only [claimDailyEntry, Nat.add_zero]
        rw [← hpre, ← hday, logDateCount_eq_logsOnDay]
      have hfun : ((fun k => claimDailyEntry now w logs ((w - (r + 1)) + k)) ∘ Nat.succ) =
          (fun k => claimDailyEntry now w logs ((w - r) + k)) := by
        funext k
        exact congrArg (claimDailyEntry now w logs) (by omega)
      rw [hfun, ← hhead]

/-- C2: for every window length and every log list, the daily series is
exactly the chronological list described by the specification: one entry
per calendar day from the oldest day of the window to the day of `now`,
each carrying the short weekday label, the per-day log count and the
forward running streak; in particular it has exactly `windowDays`
entries. -/
theorem dailyStats_matches_claim :
    ∀ (now : Int) (w : Nat) (logs : List WorkoutLog),
      dailyStats now w logs = (List.range w).map (claimDailyEntry now w logs)
      ∧ (dailyStats now w logs).length = w := by
  intro now w logs
  have h := dailyStatsGo_eq_claim now w logs w (Nat.le_refl w)
  rw [Nat.sub_self] at h
  have h0 : preStreak now w logs 0 = 0 := rfl
  rw [h0] at h
  have hmap : (fun k => claimDailyEntry now w logs (0 + k)) =
      claimDailyEntry now w logs := by
    funext k
    exact congrArg (claimDailyEntry now w logs) (Nat.zero_add k)
  have hfinal : dailyStats now w logs = (List.range w).map (claimDailyEntry now w logs) := by
    rw [dailyStats, h, hmap]
  refine ⟨hfinal, ?_⟩
  rw [hfinal, List.length_map, List.length_range]

/-- C3 counterexample: a log carrying its own `durationMinutes` of 30 and
linked to a workout with `estimatedDuration` 45 contributes 45 minutes,
not 30 — the reducer consults the linked workout first and never reads
the log field. -/
theorem logDuration_priority_counterexample :
    totalMinutes (enrichLogsWithWorkouts
      [{ workoutId := some "w1", durationMinutes := some 30 }]
      [{ id := "w1", estimatedDuration := some 45 }]) = 45
    ∧ (45 : Int) ≠ 30 := by
  constructor
  · have hlen : 0 < "w1".length := by decide
    norm_num [hlen, totalMinutes, totalMinutesRaw, enrichLogsWithWorkouts, workoutMapGet,
      validWorkoutId, perLogMinutes, estimatedDurationTruthy, jsRound, logExercisesMinutes,
      Option.some_ne_none]
  · decide

/-- C3 amended: the per-log derived duration never consults the own
`durationMinutes` of the log; the `estimatedDuration` of the linked
workout wins whenever
it is present and non-zero, and only a log without such a linked duration
falls back to the exercise-based sum. -/
theorem logDuration_priority_amended :
    (∀ (l : WorkoutLog) (wo : Option Workout) (v : Option ℚ),
        perLogMinutes ⟨{ l with durationMinutes := v }, wo⟩ = perLogMinutes ⟨l, wo⟩)
    ∧ (∀ (l : WorkoutLog) (wk : Workout) (d : Int),
        wk.estimatedDuration = some d → d ≠ 0 →
        perLogMinutes ⟨l, some wk⟩ = (d : ℚ))
    ∧ (∀ (l : WorkoutLog) (wo : Option Workout),
        estimatedDurationTruthy wo = none →
        perLogMinutes ⟨l, wo⟩ = logExercisesMinutes l) := by
  refine ⟨?_, ?_, ?_⟩
  · intro l wo v
    rfl
  · intro l wk d hd hne
    simp [perLogMinutes, estimatedDurationTruthy, hd, hne]
  · intro l wo h
    simp [perLogMinutes, h]

/-- Witness for the amended duration-priority theorem: the concrete log
of the counterexample evaluates to 45 minutes. -/
theorem logDuration_priority_amended_witness :
    perLogMinutes ⟨{ durationMinutes := some 30 }, some { id := "w1", estimatedDuration := some 45 }⟩
      = (45 : ℚ) :=
  logDuration_priority_amended.2.1 { durationMinutes := some 30 }
    { id := "w1", estimatedDuration := some 45 } 45 rfl (by decide)

theorem foldl_add_eq_sum {α : Type} (f : α → ℚ) :
    ∀ (l : List α) (a : ℚ), l.foldl (fun t x => t + f x) a = a + (l.map f).sum := by
  intro l
  induction l with
  | nil => intro a; simp
  | cons x xs ih =>
      intro a
      simp only [List.foldl_cons, List.map_cons, List.sum_cons]
      rw [ih]
      ring

/-- C5: a log with no usable own duration and no truthy linked workout
duration derives its minutes as the sum over its exercise array of the
per-exercise derivation described by the specification; non-object
entries contribute 0; and the report-level total is the rounded sum
clamped to be non-negative. -/
theorem exerciseFallback_matches_claim :
    ∀ (el : EnrichedLog) (es : List ExerciseEntry),
      ¬ (∃ v, el.log.durationMinutes = some v ∧ 0 < v) →
      estimatedDurationTruthy el.workout = none →
      el.log.exercises = ExercisesVal.arr es →
      perLogMinutes el = (es.map exerciseDerivedMinutes).sum
      ∧ (∀ r : ExerciseRec, exerciseDerivedMinutes (ExerciseEntry.obj r) = claimExerciseMinutes r)
      ∧ exerciseDerivedMinutes ExerciseEntry.nonObj = 0
      ∧ (∀ els : List EnrichedLog,
          totalMinutes els = max 0 (jsRound ((els.map perLogMinutes).sum))
          ∧ 0 ≤ totalMinutes els) := by
  intro el es _ hwk hex
  refine ⟨?_, ?_, rfl, ?_⟩
  · rw [perLogMinutes, hwk]
    simp only [logExercisesMinutes, hex]
    rw [foldl_add_eq_sum]
    ring
  · intro r
    rcases r with ⟨m, g, s⟩
    cases m with
    | some mv => simp [exerciseDerivedMinutes, claimExerciseMinutes, Option.orElse]
    | none =>
        cases g with
        | some gv => simp [exerciseDerivedMinutes, claimExerciseMinutes, Option.orElse]
        | none =>
            cases s with
            | some sv => simp [exerciseDerivedMinutes, claimExerciseMinutes, Option.orElse]
            | none => simp [exerciseDerivedMinutes, claimExerciseMinutes, Option.orElse]
  · intro els
    constructor
    · rw [totalMinutes, totalMinutesRaw, foldl_add_eq_sum]
      ring_nf
    · exact le_max_left 0 _

/-- Witness for the exercise-fallback theorem: one exercise of 120
seconds yields 2 minutes. -/
theorem exerciseFallback_matches_claim_witness :
    perLogMinutes ⟨{ exercises := ExercisesVal.arr [ExerciseEntry.obj { durationSeconds := some 120 }] }, none⟩
      = (2 : ℚ) :=
  Eq.trans
    ((exerciseFallback_matches_claim
      ⟨{ exercises := ExercisesVal.arr [ExerciseEntry.obj { durationSeconds := some 120 }] }, none⟩
      [ExerciseEntry.obj { durationSeconds := some 120 }]
      (fun h => Option.noConfusion h.choose_spec.1) rfl rfl).1)
    (by norm_num [exerciseDerivedMinutes, jsRound, Option.orElse])

theorem roundedAverage_form (vals : List ℚ) :
    (if vals.length ≠ 0 then
        ((jsRound ((vals.foldl (fun s r => s + r) 0 / (vals.length : ℚ)) * 10) : Int) : ℚ) / 10
      else 0) = claimMeanRounded vals := by
  by_cases h : vals = []
  · subst h
    simp [claimMeanRounded]
  · have hlen : vals.length ≠ 0 := by simpa [List.length_eq_zero] using h
    rw [if_pos hlen, claimMeanRounded, if_neg h]
    have hsum : vals.foldl (fun s r => s + r) 0 = vals.sum := by
      rw [List.sum_eq_foldl]
    rw [hsum]
    have hmul : vals.sum / (vals.length : ℚ) * 10 = 10 * (vals.sum / (vals.length : ℚ)) := by
      ring
    rw [hmul]

/-- C6: the average rating of the progress report is the mean of the
present, strictly positive rating values rounded to one decimal place,
and 0 when no such value is present; the average RPE aggregate (modelled
from the specification) satisfies the same property over the RPE
values. -/
theorem averages_match_claim :
    ∀ logs : List WorkoutLog,
      averageRating logs = claimMeanRounded (ratingValues logs)
      ∧ averageRpe logs = claimMeanRounded (rpeValues logs)
      ∧ (ratingValues logs = [] → averageRating logs = 0)
      ∧ (rpeValues logs = [] → averageRpe logs = 0) := by
  intro logs
  have hr : averageRating logs = claimMeanRounded (ratingValues logs) := by
    rw [averageRating, roundedAverage_form]
  have hp : averageRpe logs = claimMeanRounded (rpeValues logs) := by
    rw [averageRpe, roundedAverage_form]
  refine ⟨hr, hp, ?_, ?_⟩
  · intro hnil
    rw [hr, hnil, claimMeanRounded, if_pos rfl]
  · intro hnil
    rw [hp, hnil, claimMeanRounded, if_pos rfl]

/-- Witness for the averages theorem: with no rating present the average
rating is 0. -/
theorem averages_match_claim_witness :
    averageRating [{ rating := none }] = 0 :=
  (averages_match_claim [{ rating := none }]).2.2.1 rfl

/-- The this-week filter predicate of the progress handler. -/
theorem workoutsThisWeek_min7 (now : Int) (w : Nat) (logs : List WorkoutLog) (h7 : 7 ≤ w) :
    workoutsThisWeek now w logs = workoutsThisWeek now 7 logs := by
  have hmin : min w 7 = 7 := by omega
  simp only [workoutsThisWeek, hmin, Nat.min_self]

/-- C8 counterexample: with a one-day window and a single log three days
old, the handler counts 0 workouts this week, while the trailing-7-day
description of the claim counts 1. -/
theorem thisWeek_fixed_window_counterexample :
    workoutsThisWeek 0 1 [{ completedAt := some (-3 * DAY_IN_MS) }] = 0
    ∧ claimThisWeek 0 [{ completedAt := some (-3 * DAY_IN_MS) }] = 1 := by
  constructor
  · decide
  · decide

/-- C8 amended: the this-week count counts the logs whose `completedAt`
is at or after `now` minus `min(windowDays, 7) - 1` days; for window
lengths of at least 7 days it is the fixed trailing 7-day window
(independent of the window length), logs older than 7 days are never
counted, and whenever every log of the list lies inside the query window
the count coincides with the trailing-7-day count of the claim. -/
theorem thisWeek_matches_amended_claim :
    (∀ (now : Int) (w : Nat) (logs : List WorkoutLog), 7 ≤ w → w ≤ 31 →
        workoutsThisWeek now w logs = workoutsThisWeek now 7 logs)
    ∧ (∀ (now : Int) (w : Nat) (l : WorkoutLog) (logs : List WorkoutLog) (t : Int),
        l.completedAt = some t → t < now - 6 * DAY_IN_MS →
        workoutsThisWeek now w (l :: logs) = workoutsThisWeek now w logs)
    ∧ (∀ (now : Int) (w : Nat) (logs : List WorkoutLog), 1 ≤ w → w ≤ 31 →
        (∀ l ∈ logs, ∀ t : Int, l.completedAt = some t →
          now - ((w : Int) - 1) * DAY_IN_MS ≤ t ∧ t ≤ now) →
        workoutsThisWeek now w logs = claimThisWeek now logs) := by
  refine ⟨?_, ?_, ?_⟩
  · intro now w logs h7 _
    exact workoutsThisWeek_min7 now w logs h7
  · intro now w l logs t hct hold
    have hmin : ((min w 7 : Nat) : Int) ≤ 7 := by
      have := Nat.min_le_right w 7
      omega
    have hprod : (((min w 7 : Nat) : Int) - 1) * DAY_IN_MS ≤ 6 * DAY_IN_MS :=
      mul_le_mul_of_nonneg_right (by omega) (by decide)
    have hlt : t < now - (((min w 7 : Nat) : Int) - 1) * DAY_IN_MS := by
      linarith
    have hnot : ¬ (now - (((min w 7 : Nat) : Int) - 1) * DAY_IN_MS ≤ t) := not_le.mpr hlt
    rw [workoutsThisWeek, workoutsThisWeek, List.filter_cons]
    simp only [hct, decide_eq_true_eq]
    rw [if_neg hnot]
  · intro now w logs h1 _ hwin
    induction logs with
    | nil => rfl
    | cons l ls ih =>
        have hwin' : ∀ x ∈ ls, ∀ t : Int, x.completedAt = some t →
            now - ((w : Int) - 1) * DAY_IN_MS ≤ t ∧ t ≤ now := by
          intro x hx
          exact hwin x (List.mem_cons_of_mem l hx)
        have ihv := ih hwin'
        rw [workoutsThisWeek, claimThisWeek, List.filter_cons, List.filter_cons]
        rw [workoutsThisWeek, claimThisWeek] at ihv
        cases hct : l.completedAt with
        | none =>
            simp only [hct]
            simpa using ihv
        | some t =>
            have hbounds := hwin l (List.mem_cons_self l ls) t hct
            have hiff : (now - (((min w 7 : Nat) : Int) - 1) * DAY_IN_MS ≤ t) ↔
                (now - 6 * DAY_IN_MS ≤ t) := by
              rcases le_or_lt w 7 with hle | hgt
              · have hminw : min w 7 = w := by omega
                have hcast : ((min w 7 : Nat) : Int) = (w : Int) := by rw [hminw]
                rw [hcast]
                constructor
                · intro _
                  have hp : ((w : Int) - 1) * DAY_IN_MS ≤ 6 * DAY_IN_MS :=
                    mul_le_mul_of_nonneg_right (by omega) (by decide)
                  linarith [hbounds.1]
                · intro _
                  exact hbounds.1
              · have hminw : min w 7 = 7 := by omega
                have hcast : ((min w 7 : Nat) : Int) = 7 := by rw [hminw]; norm_num
                rw [hcast]
                norm_num
            simp only [hct, decide_eq_true_eq, Bool.and_eq_true]
            by_cases hS : now - 6 * DAY_IN_MS ≤ t
            · have hC := hiff.mpr hS
              rw [if_pos hC, if_pos ⟨hS, hbounds.2⟩]
              simp only [List.length_cons]
              rw [ihv]
            · have hC : ¬ (now - (((min w 7 : Nat) : Int) - 1) * DAY_IN_MS ≤ t) :=
                fun hc => hS (hiff.mp hc)
              rw [if_neg hC, if_neg (fun hand => hS hand.1)]
              exact ihv

/-- Witness for the amended this-week theorem: a log within the query
window of a 28-day request is counted exactly as by the trailing-7-day
description. -/
theorem thisWeek_matches_amended_claim_witness :
    workoutsThisWeek 0 28 [{ completedAt := some (-3 * DAY_IN_MS) }] =
      claimThisWeek 0 [{ completedAt := some (-3 * DAY_IN_MS) }] :=
  thisWeek_matches_amended_claim.2.2 0 28 [{ completedAt := some (-3 * DAY_IN_MS) }]
    (by decide) (by decide)
    (by
      intro l hl t hct
      rw [List.mem_singleton] at hl
      subst hl
      have h : -3 * DAY_IN_MS = t := Option.some.inj hct
      subst h
      exact ⟨by decide, by decide⟩)

theorem inBucket_iff (today : Int) (w j : Nat) (d : Int) :
    inBucket today w j d = true ↔
      (today - ((min (7 * j + 6) (w - 1) : Nat) : Int) ≤ d ∧ d ≤ today - 7 * (j : Int)) := by
  simp [inBucket, bucketStartDay, bucketEndDay, Bool.and_eq_true, decide_eq_true_eq]

theorem bucket_cover (today : Int) (w : Nat) (h1 : 1 ≤ w) (d : Int) :
    (today - ((w : Int) - 1) ≤ d ∧ d ≤ today) ↔
      ∃ j : Nat, j < numWeekBuckets w ∧ inBucket today w j d = true := by
  constructor
  · intro hd
    refine ⟨((today - d).toNat) / 7, ?_, ?_⟩
    · simp only [numWeekBuckets]
      omega
    · rw [inBucket_iff]
      omega
  · rintro ⟨j, hj, hb⟩
    rw [inBucket_iff] at hb
    simp only [numWeekBuckets] at hj
    omega

theorem bucket_disjoint (today : Int) (w : Nat) (j k : Nat) (d : Int)
    (hj : inBucket today w j d = true) (hk : inBucket today w k d = true) : j = k := by
  rw [inBucket_iff] at hj hk
  omega

theorem sum_map_add_nat (f g : Nat → Nat) :
    ∀ l : List Nat, (l.map (fun j => f j + g j)).sum = (l.map f).sum + (l.map g).sum := by
  intro l
  induction l with
  | nil => rfl
  | cons x xs ih =>
      simp only [List.map_cons, List.sum_cons, ih]
      omega

theorem sum_map_ite_zero (P : Nat → Bool) :
    ∀ n : Nat, (∀ j : Nat, j < n → P j = false) →
      ((List.range n).map (fun j => if P j then 1 else 0)).sum = 0 := by
  intro n
  induction n with
  | zero => intro _; rfl
  | succ m ih =>
      intro h
      rw [List.range_succ, List.map_append, List.sum_append]
      rw [ih (fun j hj => h j (by omega))]
      simp [h m (by omega)]

theorem sum_map_ite_one (P : Nat → Bool) :
    ∀ (n j₀ : Nat), j₀ < n → (∀ j : Nat, j < n → (P j = true ↔ j = j₀)) →
      ((List.range n).map (fun j => if P j then 1 else 0)).sum = 1 := by
  intro n
  induction n with
  | zero => intro j₀ hj₀; omega
  | succ m ih =>
      intro j₀ hj₀ hP
      rw [List.range_succ, List.map_append, List.sum_append]
      rcases Nat.lt_or_ge j₀ m with hlt | hge
      · have hPm : P m = false := by
          cases hPm : P m
          · rfl
          · have := (hP m (by omega)).mp hPm
            omega
        rw [ih j₀ hlt (fun j hj => hP j (by omega))]
        simp [hPm]
      · have hj0m : j₀ = m := by omega
        subst hj0m
        have hPm : P j₀ = true := (hP j₀ (by omega)).mpr rfl
        rw [sum_map_ite_zero P j₀ (fun j hj => by
          cases hPj : P j
          · rfl
          · have := (hP j (by omega)).mp hPj
            omega)]
        simp [hPm]

theorem bucketLogs_cons_length (today : Int) (w j : Nat) (el : EnrichedLog)
    (rest : List EnrichedLog) :
    (bucketLogs today w j (el :: rest)).length =
      (bucketLogs today w j rest).length +
        (if (match el.log.completedAt with
             | some t => inBucket today w j (dayOf t)
             | none => false) then 1 else 0) := by
  rw [bucketLogs, bucketLogs, List.filter_cons]
  cases hp : (match el.log.completedAt with
      | some t => inBucket today w j (dayOf t)
      | none => false) with
  | false => simp [hp]
  | true => simp [hp]

theorem sum_bucket_lengths (today : Int) (w : Nat) (h1 : 1 ≤ w) :
    ∀ els : List EnrichedLog,
      ((List.range (numWeekBuckets w)).map
        (fun j => (bucketLogs today w j els).length)).sum =
        els.countP (inWindowLog today w) := by
  intro els
  induction els with
  | nil => simp [bucketLogs]
  | cons el rest ih =>
      have hsplit : (fun j => (bucketLogs today w j (el :: rest)).length) =
          (fun j => (bucketLogs today w j rest).length +
            (if (match el.log.completedAt with
                 | some t => inBucket today w j (dayOf t)
                 | none => false) then 1 else 0)) := by
        funext j
        exact bucketLogs_cons_length today w j el rest
      rw [hsplit, sum_map_add_nat, ih, List.countP_cons]
      have hind : ((List.range (numWeekBuckets w)).map
          (fun j => if (match el.log.completedAt with
              | some t => inBucket today w j (dayOf t)
              | none => false) then 1 else 0)).sum =
          (if inWindowLog today w el then 1 else 0) := by
        cases hct : el.log.completedAt with
        | none =>
            show ((List.range (numWeekBuckets w)).map
                (fun _ => if (false : Bool) then 1 else 0)).sum =
              (if inWindowLog today w el then 1 else 0)
            rw [sum_map_ite_zero _ _ (fun j _ => rfl)]
            simp [inWindowLog, hct]
        | some t =>
            show ((List.range (numWeekBuckets w)).map
                (fun j => if inBucket today w j (dayOf t) then 1 else 0)).sum =
              (if inWindowLog today w el then 1 else 0)
            by_cases hin : today - ((w : Int) - 1) ≤ dayOf t ∧ dayOf t ≤ today
            · obtain ⟨j₀, hj₀, hbj₀⟩ := (bucket_cover today w h1 (dayOf t)).mp hin
              have hsum := sum_map_ite_one (fun j => inBucket today w j (dayOf t))
                (numWeekBuckets w) j₀ hj₀
                (fun j hj => ⟨fun hb => bucket_disjoint today w j j₀ (dayOf t) hb hbj₀,
                  fun hj0 => by rw [hj0]; exact hbj₀⟩)
              rw [hsum]
              have hw : inWindowLog today w el = true := by
                simp only [inWindowLog, hct, Bool.and_eq_true, decide_eq_true_eq]
                exact hin
              rw [hw]
              decide
            · have hsum := sum_map_ite_zero (fun j => inBucket today w j (dayOf t))
                (numWeekBuckets w)
                (fun j hj => by
                  show inBucket today w j (dayOf t) = false
                  cases hb : inBucket today w j (dayOf t) with
                  | false => rfl
                  | true =>
                      exact absurd ((bucket_cover today w h1 (dayOf t)).mpr ⟨j, hj, hb⟩) hin)
              rw [hsum]
              have hw : inWindowLog today w el = false := by
                simp only [inWindowLog, hct]
                cases hA : decide (today - ((w : Int) - 1) ≤ dayOf t) with
                | false => rfl
                | true =>
                    cases hB : decide (dayOf t ≤ today) with
                    | false => simp
                    | true =>
                        exact absurd ⟨of_decide_eq_true hA, of_decide_eq_true hB⟩ hin
              rw [hw]
              decide
      rw [hind]

/-- C4: for every invocation with a window of 1 to 31 days, the
spec-modelled weekly summaries form trailing 7-day buckets ending at the
day of `now`, with the oldest bucket absorbing the remainder: the buckets
cover the window with no gap and no overlap, stay inside the window, are
produced chronologically with adjacent buckets meeting exactly, and
their workout counts sum to the number of in-window logs. -/
theorem weeklySummaries_match_claim :
    ∀ (now : Int) (w : Nat) (els : List EnrichedLog), 1 ≤ w → w ≤ 31 →
      (weeklySummaries now w els).length = numWeekBuckets w
      ∧ (∀ d : Int, (dayOf now - ((w : Int) - 1) ≤ d ∧ d ≤ dayOf now) ↔
          ∃ j : Nat, j < numWeekBuckets w ∧ inBucket (dayOf now) w j d = true)
      ∧ (∀ j k : Nat, ∀ d : Int, inBucket (dayOf now) w j d = true →
          inBucket (dayOf now) w k d = true → j = k)
      ∧ (∀ j : Nat, j < numWeekBuckets w →
          dayOf now - ((w : Int) - 1) ≤ bucketStartDay (dayOf now) w j
          ∧ bucketEndDay (dayOf now) j ≤ dayOf now)
      ∧ (∀ j : Nat, 1 ≤ j → j < numWeekBuckets w →
          bucketEndDay (dayOf now) j + 1 = bucketStartDay (dayOf now) w (j - 1))
      ∧ ((weeklySummaries now w els).map (fun s => s.workouts)).sum =
          els.countP (inWindowLog (dayOf now) w) := by
  intro now w els h1 h31
  refine ⟨?_, ?_, ?_, ?_, ?_, ?_⟩
  · rw [weeklySummaries, List.length_map, List.length_reverse, List.length_range]
  · intro d
    exact bucket_cover (dayOf now) w h1 d
  · intro j k d hj hk
    exact bucket_disjoint (dayOf now) w j k d hj hk
  · intro j hj
    simp only [numWeekBuckets] at hj
    simp only [bucketStartDay, bucketEndDay]
    omega
  · intro j hj1 hj
    simp only [numWeekBuckets] at hj
    simp only [bucketStartDay, bucketEndDay]
    omega
  · rw [weeklySummaries, List.map_map]
    have hw : ((fun s => s.workouts) ∘ fun j => mkWeekSummary (dayOf now) w j els) =
        (fun j => (bucketLogs (dayOf now) w j els).length) := by
      funext j
      rfl
    rw [hw, List.map_reverse, List.sum_reverse]
    exact sum_bucket_lengths (dayOf now) w h1 els

theorem mem_firstSeenGo :
    ∀ (l seen : List String) (s : String),
      s ∈ firstSeenGo seen l ↔ (s ∈ l ∧ s ∉ seen) := by
  intro l
  induction l with
  | nil => intro seen s; simp [firstSeenGo]
  | cons t rest ih =>
      intro seen s
      by_cases ht : t ∈ seen
      · rw [firstSeenGo, if_pos ht, ih]
        constructor
        · rintro ⟨hr, hs⟩
          exact ⟨List.mem_cons_of_mem t hr, hs⟩
        · rintro ⟨hts, hs⟩
          rcases List.mem_cons.mp hts with hst | hr
          · subst hst
            exact (hs ht).elim
          · exact ⟨hr, hs⟩
      · rw [firstSeenGo, if_neg ht]
        by_cases hst : s = t
        · subst hst
          simp [ht]
        · rw [List.mem_cons]
          constructor
          · rintro (hts | hgo)
            · exact (hst hts).elim
            · rcases (ih (t :: seen) s).mp hgo with ⟨hr, hs⟩
              exact ⟨List.mem_cons_of_mem t hr, fun hseen => hs (List.mem_cons_of_mem t hseen)⟩
          · rintro ⟨hts, hs⟩
            rcases List.mem_cons.mp hts with hst' | hr
            · exact (hst hst').elim
            · refine Or.inr ((ih (t :: seen) s).mpr ⟨hr, ?_⟩)
              intro hmem
              rcases List.mem_cons.mp hmem with hst' | hseen
              · exact hst hst'
              · exact hs hseen

theorem nodup_firstSeenGo :
    ∀ (l seen : List String), (firstSeenGo seen l).Nodup := by
  intro l
  induction l with
  | nil => intro seen; exact List.nodup_nil
  | cons t rest ih =>
      intro seen
      by_cases ht : t ∈ seen
      · rw [firstSeenGo, if_pos ht]
        exact ih seen
      · rw [firstSeenGo, if_neg ht]
        refine List.Nodup.cons ?_ (ih (t :: seen))
        intro hmem
        exact ((mem_firstSeenGo rest (t :: seen) t).mp hmem).2 (List.mem_cons_self t seen)

theorem mem_firstSeenTags (l : List String) (s : String) :
    s ∈ firstSeenTags l ↔ s ∈ l := by
  rw [firstSeenTags, mem_firstSeenGo]
  simp

theorem nodup_firstSeenTags (l : List String) : (firstSeenTags l).Nodup :=
  nodup_firstSeenGo l []

theorem tagBeforeB_iff (logs : List WorkoutLog) (a b : String) :
    tagBeforeB logs a b = true ↔ tagBefore logs a b := by
  simp [tagBeforeB, tagBefore, Bool.or_eq_true, Bool.and_eq_true, decide_eq_true_eq,
    beq_iff_eq]

theorem tagBefore_trans (logs : List WorkoutLog) (a b c : String)
    (hab : tagBefore logs a b) (hbc : tagBefore logs b c) : tagBefore logs a c := by
  rcases hab with h1 | ⟨h1, h1i⟩ <;> rcases hbc with h2 | ⟨h2, h2i⟩
  · exact Or.inl (by omega)
  · exact Or.inl (by omega)
  · exact Or.inl (by omega)
  · exact Or.inr ⟨by omega, by omega⟩

theorem firstIdx_inj (logs : List WorkoutLog) (a b : String)
    (ha : a ∈ allTags logs) (hb : b ∈ allTags logs)
    (h : firstIdx logs a = firstIdx logs b) : a = b := by
  have hla : List.indexOf a (allTags logs) < (allTags logs).length :=
    List.indexOf_lt_length.mpr ha
  have hlb : List.indexOf b (allTags logs) < (allTags logs).length :=
    List.indexOf_lt_length.mpr hb
  have hga := List.indexOf_get hla
  have hgb := List.indexOf_get hlb
  rw [firstIdx, firstIdx] at h
  rw [← hga, ← hgb]
  congr 1
  exact Fin.ext h

theorem tagBefore_total (logs : List WorkoutLog) (a b : String)
    (ha : a ∈ allTags logs) (hb : b ∈ allTags logs) (hne : a ≠ b) :
    tagBefore logs a b ∨ tagBefore logs b a := by
  have hidx : firstIdx logs a ≠ firstIdx logs b :=
    fun h => hne (firstIdx_inj logs a b ha hb h)
  rw [tagBefore, tagBefore]
  omega

theorem mem_insertRankedTag (logs : List WorkoutLog) (x : String) :
    ∀ (l : List String) (s : String),
      s ∈ insertRankedTag logs x l ↔ s = x ∨ s ∈ l := by
  intro l
  induction l with
  | nil => intro s; simp [insertRankedTag]
  | cons y ys ih =>
      intro s
      rw [insertRankedTag]
      by_cases hb : tagBeforeB logs y x = true
      · rw [if_pos hb, List.mem_cons, ih]
        rw [List.mem_cons]
        tauto
      · rw [if_neg hb]
        rw [List.mem_cons, List.mem_cons]

theorem nodup_insertRankedTag (logs : List WorkoutLog) (x : String) :
    ∀ l : List String, x ∉ l → l.Nodup → (insertRankedTag logs x l).Nodup := by
  intro l
  induction l with
  | nil => intro _ _; simp [insertRankedTag]
  | cons y ys ih =>
      intro hx hnd
      rw [insertRankedTag]
      by_cases hb : tagBeforeB logs y x = true
      · rw [if_pos hb]
        refine List.Nodup.cons ?_ (ih (fun h => hx (List.mem_cons_of_mem y h))
          (List.Nodup.of_cons hnd))
        intro hmem
        rcases (mem_insertRankedTag logs x ys y).mp hmem with hyx | hyys
        · exact hx (hyx ▸ List.mem_cons_self y ys)
        · exact (List.nodup_cons.mp hnd).1 hyys
      · rw [if_neg hb]
        exact List.Nodup.cons hx hnd

theorem pairwise_insertRankedTag (logs : List WorkoutLog) (x : String) :
    ∀ l : List String, l.Pairwise (tagBefore logs) →
      (∀ y ∈ l, tagBefore logs y x ∨ tagBefore logs x y) →
      (insertRankedTag logs x l).Pairwise (tagBefore logs) := by
  intro l
  induction l with
  | nil => intro _ _; simp [insertRankedTag]
  | cons y ys ih =>
      intro hpw htot
      rw [insertRankedTag]
      have hpw' := List.pairwise_cons.mp hpw
      by_cases hb : tagBeforeB logs y x = true
      · rw [if_pos hb]
        refine List.pairwise_cons.mpr ⟨?_, ?_⟩
        · intro z hz
          rcases (mem_insertRankedTag logs x ys z).mp hz with hzx | hzys
          · rw [hzx]
            exact (tagBeforeB_iff logs y x).mp hb
          · exact hpw'.1 z hzys
        · exact ih hpw'.2 (fun z hz => htot z (List.mem_cons_of_mem y hz))
      · rw [if_neg hb]
        have hxy : tagBefore logs x y := by
          rcases htot y (List.mem_cons_self y ys) with hyx | hxy
          · exact absurd ((tagBeforeB_iff logs y x).mpr hyx) hb
          · exact hxy
        refine List.pairwise_cons.mpr ⟨?_, hpw⟩
        intro z hz
        rcases List.mem_cons.mp hz with hzy | hzys
        · subst hzy
          exact hxy
        · exact tagBefore_trans logs x y z hxy (hpw'.1 z hzys)

theorem foldl_insertRankedTag_invariant (logs : List WorkoutLog) :
    ∀ (todo acc : List String),
      acc.Pairwise (tagBefore logs) → acc.Nodup →
      (∀ y ∈ acc, y ∈ allTags logs) →
      todo.Nodup → (∀ s ∈ todo, s ∈ allTags logs ∧ s ∉ acc) →
      (todo.foldl (fun a t => insertRankedTag logs t a) acc).Pairwise (tagBefore logs)
      ∧ (todo.foldl (fun a t => insertRankedTag logs t a) acc).Nodup
      ∧ (∀ s, s ∈ todo.foldl (fun a t => insertRankedTag logs t a) acc ↔
          s ∈ acc ∨ s ∈ todo) := by
  intro todo
  induction todo with
  | nil =>
      intro acc hpw hnd hmem _ _
      refine ⟨hpw, hnd, ?_⟩
      intro s
      simp
  | cons x xs ih =>
      intro acc hpw hnd hmem hndt hmemt
      have hx := hmemt x (List.mem_cons_self x xs)
      have hpw' : (insertRankedTag logs x acc).Pairwise (tagBefore logs) := by
        refine pairwise_insertRankedTag logs x acc hpw ?_
        intro y hy
        have hyx : y ≠ x := fun h => hx.2 (h ▸ hy)
        rcases tagBefore_total logs y x (hmem y hy) hx.1 hyx with h | h
        · exact Or.inl h
        · exact Or.inr h
      have hnd' : (insertRankedTag logs x acc).Nodup :=
        nodup_insertRankedTag logs x acc hx.2 hnd
      have hmem' : ∀ y ∈ insertRankedTag logs x acc, y ∈ allTags logs := by
        intro y hy
        rcases (mem_insertRankedTag logs x acc y).mp hy with hyx | hyacc
        · exact hyx ▸ hx.1
        · exact hmem y hyacc
      have hndt' : xs.Nodup := List.Nodup.of_cons hndt
      have hmemt' : ∀ s ∈ xs, s ∈ allTags logs ∧ s ∉ insertRankedTag logs x acc := by
        intro s hs
        refine ⟨(hmemt s (List.mem_cons_of_mem x hs)).1, ?_⟩
        intro hmem''
        rcases (mem_insertRankedTag logs x acc s).mp hmem'' with hsx | hsacc
        · exact (List.nodup_cons.mp hndt).1 (hsx ▸ hs)
        · exact (hmemt s (List.mem_cons_of_mem x hs)).2 hsacc
      have := ih (insertRankedTag logs x acc) hpw' hnd' hmem' hndt' hmemt'
      refine ⟨this.1, this.2.1, ?_⟩
      intro s
      rw [List.foldl_cons] at *
      rw [this.2.2 s, mem_insertRankedTag]
      rw [List.mem_cons]
      tauto

theorem rankedTags_spec (logs : List WorkoutLog) :
    (rankedTags logs).Pairwise (tagBefore logs)
    ∧ (rankedTags logs).Nodup
    ∧ (∀ s, s ∈ rankedTags logs ↔ s ∈ allTags logs) := by
  have hinv := foldl_insertRankedTag_invariant logs (firstSeenTags (allTags logs)) []
    List.Pairwise.nil List.nodup_nil (fun y hy => absurd hy (List.not_mem_nil y))
    (nodup_firstSeenTags (allTags logs))
    (fun s hs => ⟨(mem_firstSeenTags (allTags logs) s).mp hs, List.not_mem_nil s⟩)
  rw [rankedTags]
  refine ⟨hinv.1, hinv.2.1, ?_⟩
  intro s
  rw [hinv.2.2 s, mem_firstSeenTags]
  simp

/-- C7: the spec-modelled tag breakdown lists every tag occurring across
the logs exactly once, paired with its occurrence count, ranked by
strictly descending count with ties broken by first-seen order; the
worked example with tags strength, strength, mobility across two logs
yields strength with count 2 before mobility with count 1. -/
theorem tagBreakdown_matches_claim :
    ∀ logs : List WorkoutLog,
      (∀ p ∈ tagBreakdown logs, p.2 = occCount logs p.1)
      ∧ (∀ t : String, (∃ c, (t, c) ∈ tagBreakdown logs) ↔ 0 < occCount logs t)
      ∧ (tagBreakdown logs).Pairwise (fun p q =>
          q.2 < p.2 ∨ (p.2 = q.2 ∧ firstIdx logs p.1 < firstIdx logs q.1))
      ∧ (tagBreakdown [{ tags := some ["strength"] },
          { tags := some ["strength", "mobility"] }] =
          [("strength", 2), ("mobility", 1)]) := by
  intro logs
  obtain ⟨hpw, hnd, hmem⟩ := rankedTags_spec logs
  refine ⟨?_, ?_, ?_, by decide⟩
  · intro p hp
    obtain ⟨t, _, hpt⟩ := List.mem_map.mp hp
    rw [← hpt]
  · intro t
    constructor
    · rintro ⟨c, hc⟩
      obtain ⟨u, hu, hut⟩ := List.mem_map.mp hc
      have : u = t := congrArg Prod.fst hut
      subst this
      rw [occCount, List.count_pos_iff]
      exact (hmem u).mp hu
    · intro hpos
      refine ⟨occCount logs t, ?_⟩
      rw [tagBreakdown]
      exact List.mem_map.mpr ⟨t, (hmem t).mpr ((List.count_pos_iff).mp hpos), rfl⟩
  · rw [tagBreakdown]
    refine List.Pairwise.map _ ?_ hpw
    intro a b hab
    rcases hab with h | ⟨h1, h2⟩
    · exact Or.inl h
    · exact Or.inr ⟨h1, h2⟩

/-- Witness for the weekly-summaries theorem: a 10-day window around day
100 with two logs, one in each bucket. -/
theorem weeklySummaries_match_claim_witness :
    ((weeklySummaries (100 * DAY_IN_MS) 10
      [⟨{ completedAt := some (100 * DAY_IN_MS) }, none⟩,
       ⟨{ completedAt := some (92 * DAY_IN_MS) }, none⟩]).map (fun s => s.workouts)).sum =
      [⟨{ completedAt := some (100 * DAY_IN_MS) }, none⟩,
       ⟨{ completedAt := some (92 * DAY_IN_MS) }, none⟩].countP
        (inWindowLog (dayOf (100 * DAY_IN_MS)) 10) :=
  (weeklySummaries_match_claim (100 * DAY_IN_MS) 10
    [⟨{ completedAt := some (100 * DAY_IN_MS) }, none⟩,
     ⟨{ completedAt := some (92 * DAY_IN_MS) }, none⟩] (by decide) (by decide)).2.2.2.2.2

theorem streakLoop_le (has : Int → Bool) (today : Int) :
    ∀ (fuel i acc : Nat), streakLoop has today acc i fuel ≤ acc + fuel := by
  intro fuel
  induction fuel with
  | zero => intro i acc; simp [streakLoop]
  | succ n ih =>
      intro i acc
      rw [streakLoop]
      by_cases h : has (today - (i : Int)) = true
      · rw [if_pos h]
        have := ih (i + 1) (acc + 1)
        omega
      · rw [if_neg h]
        by_cases hi : 0 < i
        · rw [if_pos hi]
          omega
        · rw [if_neg hi]
          have := ih (i + 1) acc
          omega

theorem streakLoop_all_false (has : Int → Bool) (today : Int)
    (hnone : ∀ d : Int, has d = false) :
    ∀ (fuel i acc : Nat), streakLoop has today acc i fuel = acc := by
  intro fuel
  induction fuel with
  | zero => intro i acc; rfl
  | succ n ih =>
      intro i acc
      rw [streakLoop, hnone, if_neg (by simp)]
      by_cases hi : 0 < i
      · rw [if_pos hi]
      · rw [if_neg hi]
        exact ih (i + 1) acc

theorem calculateCurrentStreak_le_30 (logs : List WorkoutLog) (now : Int) :
    calculateCurrentStreak logs now ≤ 30 := by
  rw [calculateCurrentStreak]
  by_cases h : logs.isEmpty
  · rw [if_pos h]
    omega
  · rw [if_neg h]
    show streakLoop (fun d => (loggedDays logs).contains d) (dayOf now) 0 0 30 ≤ 30
    have := streakLoop_le (fun d => (loggedDays logs).contains d) (dayOf now) 30 0 0
    omega

theorem dailyStats_length (now : Int) (w : Nat) (logs : List WorkoutLog) :
    (dailyStats now w logs).length = w := by
  have h := dailyStatsGo_eq_claim now w logs w (Nat.le_refl w)
  rw [Nat.sub_self] at h
  have h0 : preStreak now w logs 0 = 0 := rfl
  rw [h0] at h
  rw [dailyStats, h, List.length_map, List.length_range]

theorem logDateCount_cons_none (l : WorkoutLog) (logs : List WorkoutLog) (d : Int)
    (hct : l.completedAt = none) :
    logDateCount (l :: logs) d = logDateCount logs d := by
  simp [logDateCount, List.filterMap_cons, hct]

theorem dailyStatsGo_congr (now : Int) (logs₁ logs₂ : List WorkoutLog)
    (h : ∀ d : Int, logDateCount logs₁ d = logDateCount logs₂ d) :
    ∀ (rem s : Nat), dailyStatsGo now logs₁ rem s = dailyStatsGo now logs₂ rem s := by
  intro rem
  induction rem with
  | zero => intro s; rfl
  | succ r ih =>
      intro s
      rw [dailyStatsGo, dailyStatsGo, h, ih]

theorem loggedDays_cons_none (l : WorkoutLog) (logs : List WorkoutLog)
    (hct : l.completedAt = none) : loggedDays (l :: logs) = loggedDays logs := by
  simp [loggedDays, List.filterMap_cons, hct]

theorem currentStreak_cons_none (l : WorkoutLog) (logs : List WorkoutLog) (now : Int)
    (hct : l.completedAt = none) :
    calculateCurrentStreak (l :: logs) now = calculateCurrentStreak logs now := by
  cases logs with
  | nil =>
      rw [calculateCurrentStreak, calculateCurrentStreak]
      rw [if_neg (by simp), if_pos (by simp)]
      have hld : loggedDays [l] = [] := loggedDays_cons_none l [] hct
      rw [hld]
      exact streakLoop_all_false _ (dayOf now) (fun d => rfl) 30 0 0
  | cons l2 rest =>
      rw [calculateCurrentStreak, calculateCurrentStreak]
      rw [if_neg (by simp), if_neg (by simp)]
      rw [loggedDays_cons_none l (l2 :: rest) hct]

theorem workoutsThisWeek_cons_none (l : WorkoutLog) (logs : List WorkoutLog)
    (now : Int) (w : Nat) (hct : l.completedAt = none) :
    workoutsThisWeek now w (l :: logs) = workoutsThisWeek now w logs := by
  rw [workoutsThisWeek, workoutsThisWeek, List.filter_cons]
  simp [hct]

/-- C9: the progress computation is total and well-formed on every
syntactically valid input — the daily series always has `windowDays`
entries, the reported total minutes are never negative, the current
streak never exceeds 30 and every log is counted in the total — and a
log with a null `completedAt` is excluded from date bucketing, from both
streaks and from the this-week count without aborting anything, while
still being counted in the total. -/
theorem progress_total_and_null_safe :
    ∀ (now : Int) (w : Nat) (logs : List WorkoutLog) (fetched : List Workout),
      (progressReport now w logs fetched).dailyStats.length = w
      ∧ 0 ≤ (progressReport now w logs fetched).totalMinutes
      ∧ (progressReport now w logs fetched).currentStreak ≤ 30
      ∧ (progressReport now w logs fetched).totalWorkouts = logs.length
      ∧ (∀ l : WorkoutLog, l.completedAt = none →
          dailyStats now w (l :: logs) = dailyStats now w logs
          ∧ calculateCurrentStreak (l :: logs) now = calculateCurrentStreak logs now
          ∧ workoutsThisWeek now w (l :: logs) = workoutsThisWeek now w logs
          ∧ (progressReport now w (l :: logs) fetched).totalWorkouts = logs.length + 1) := by
  intro now w logs fetched
  refine ⟨?_, ?_, ?_, rfl, ?_⟩
  · exact dailyStats_length now w logs
  · exact le_max_left 0 _
  · exact calculateCurrentStreak_le_30 logs now
  · intro l hct
    refine ⟨?_, ?_, ?_, rfl⟩
    · rw [dailyStats, dailyStats]
      exact dailyStatsGo_congr now (l :: logs) logs
        (fun d => logDateCount_cons_none l logs d hct) w 0
    · exact currentStreak_cons_none l logs now hct
    · exact workoutsThisWeek_cons_none l logs now w hct

/-- Witness for the totality theorem: a null-timestamp log leaves the
current streak unchanged. -/
theorem progress_total_and_null_safe_witness :
    calculateCurrentStreak [{ completedAt := none }] 0 = calculateCurrentStreak [] 0 :=
  ((progress_total_and_null_safe 0 7 [] []).2.2.2.2 { completedAt := none } rfl).2.1

theorem workoutMapGet_none (fetched : List Workout) (id : String)
    (h : ∀ wk ∈ fetched, wk.id ≠ id) : workoutMapGet fetched id = none := by
  have hgen : ∀ (ws : List Workout) (acc : Option Workout),
      (∀ wk ∈ ws, wk.id ≠ id) →
      ws.foldl (fun acc w => if w.id = id then some w else acc) acc = acc := by
    intro ws
    induction ws with
    | nil => intro acc _; rfl
    | cons wk ws ih =>
        intro acc hws
        rw [List.foldl_cons, if_neg (hws wk (List.mem_cons_self wk ws))]
        exact ih acc (fun w hw => hws w (List.mem_cons_of_mem wk hw))
  exact hgen fetched none h

/-- C10: a log whose `workoutId` matches no workout returned by the batch
lookup is enriched with a null workout, its duration derivation goes
through the exercise-based fallback, and the log is still counted in
every aggregate: enrichment preserves the list length, the day bucketing
and the streak day set both see the log, the this-week filter counts it
when its timestamp qualifies, and the total workout count is positive. -/
theorem missing_workout_enrichment :
    ∀ (logs : List WorkoutLog) (fetched : List Workout) (l : WorkoutLog) (id : String),
      l ∈ logs → l.workoutId = some id → (∀ wk ∈ fetched, wk.id ≠ id) →
      (∀ el ∈ enrichLogsWithWorkouts logs fetched, el.log = l → el.workout = none)
      ∧ (enrichLogsWithWorkouts logs fetched).length = logs.length
      ∧ perLogMinutes ⟨l, none⟩ = logExercisesMinutes l
      ∧ (∀ t : Int, l.completedAt = some t →
          0 < logDateCount logs (dayOf t)
          ∧ hasLogOn logs (dayOf t) = true
          ∧ 0 < logs.length)
      ∧ (∀ (now : Int) (w : Nat) (t : Int), l.completedAt = some t →
          now - (((min w 7 : Nat) : Int) - 1) * DAY_IN_MS ≤ t →
          0 < workoutsThisWeek now w logs) := by
  intro logs fetched l id hl hlid hfetch
  refine ⟨?_, ?_, rfl, ?_, ?_⟩
  · intro el hel hlog
    rw [enrichLogsWithWorkouts] at hel
    by_cases hie : ((logs.filterMap (fun l => validWorkoutId l.workoutId)).dedup).isEmpty
    · rw [if_pos hie] at hel
      obtain ⟨l', _, hl'⟩ := List.mem_map.mp hel
      rw [← hl']
    · rw [if_neg hie] at hel
      obtain ⟨l', _, hl'⟩ := List.mem_map.mp hel
      have hlog' : l' = l := by
        rw [← hl'] at hlog
        exact hlog
      subst hlog'
      rw [← hl']
      show (match l'.workoutId with
        | some id => if 0 < id.length then workoutMapGet fetched id else none
        | none => none) = none
      rw [hlid]
      show (if 0 < id.length then workoutMapGet fetched id else none) = none
      by_cases hlen : 0 < id.length
      · rw [if_pos hlen]
        exact workoutMapGet_none fetched id hfetch
      · rw [if_neg hlen]
  · rw [enrichLogsWithWorkouts]
    by_cases hie : ((logs.filterMap (fun l => validWorkoutId l.workoutId)).dedup).isEmpty
    · rw [if_pos hie, List.length_map]
    · rw [if_neg hie, List.length_map]
  · intro t hct
    refine ⟨?_, ?_, List.length_pos_of_mem hl⟩
    · rw [logDateCount, List.count_pos_iff]
      exact List.mem_filterMap.mpr ⟨l, hl, by rw [hct]; rfl⟩
    · rw [hasLogOn, List.any_eq_true]
      refine ⟨l, hl, ?_⟩
      rw [hct]
      simp
  · intro now w t hct hle
    rw [workoutsThisWeek]
    refine List.length_pos_of_mem (a := l) ?_
    refine List.mem_filter.mpr ⟨hl, ?_⟩
    rw [hct]
    simp only [decide_eq_true_eq]
    exact hle

/-- Witness for the missing-workout theorem: one log pointing at a
deleted workout is still enriched to a list of the same length. -/
theorem missing_workout_enrichment_witness :
    (enrichLogsWithWorkouts [{ workoutId := some "w1", completedAt := some 0 }]
      [{ id := "w2", estimatedDuration := some 10 }]).length = 1 :=
  (missing_workout_enrichment [{ workoutId := some "w1", completedAt := some 0 }]
    [{ id := "w2", estimatedDuration := some 10 }]
    { workoutId := some "w1", completedAt := some 0 } "w1"
    (List.mem_singleton.mpr rfl) rfl (by decide)).2.1

end FitPlan
